import Mathlib

/-!
Verification of `Scripts/AIGenerated/pdf_to_corrected_yaml.py`, the
correction/enrichment pipeline that turns OCR-derived Sanskrit verse units
into an ordered, enriched YAML mapping.

Strings are modelled as `List Char` (`Str`).  Python `dict`s (which preserve
insertion order, update values in place and append new keys) are modelled as
association lists `List (Str × PyVal)` with the operations `dictGet` /
`dictUpd`.  The two Claude oracles are modelled as functions
`Str → Except PyErr Str` (a raised exception is `.error`), and the standard
library `json.loads` is modelled abstractly as a parameter
`decoder : Str → Option PyVal` in the universal theorems; the concrete
`pyJsonDecode` below implements the JSON fragment actually exercised and is
used for witnesses.
-/

set_option autoImplicit false

namespace PdfPipeline

/-- Strings of the Python model, as lists of characters. -/
abbrev Str := List Char

/-- Python's whitespace class for `str.strip` / `str.split` (ASCII part:
space, tab, newline, carriage return, vertical tab, form feed). -/
def pyIsSpace (c : Char) : Bool :=
  c = ' ' || c = '\t' || c = '\n' || c = '\r' || c = '\x0b' || c = '\x0c'

/-- Drop trailing whitespace, the second half of Python's `str.strip`. -/
def dropTrail (s : Str) : Str :=
  (s.reverse.dropWhile pyIsSpace).reverse

/-- Python's `str.strip()`: remove leading and trailing whitespace. -/
def pyStrip (s : Str) : Str :=
  dropTrail (s.dropWhile pyIsSpace)

/-- Python's `s.split('\n')`: split at every newline, keeping empty pieces. -/
def splitOnNl : Str → List Str
  | [] => [[]]
  | c :: cs =>
    if c = '\n' then [] :: splitOnNl cs
    else
      match splitOnNl cs with
      | [] => [[c]]
      | l :: ls => (c :: l) :: ls

/-- Python's `'\n'.join(lines)`. -/
def joinNl : List Str → Str
  | [] => []
  | [l] => l
  | l :: l' :: ls => l ++ '\n' :: joinNl (l' :: ls)

/-- Worker for `pySplit`: `cur` is the current word, accumulated in
reverse. -/
def pySplitAux (cur : Str) : Str → List Str
  | [] => if cur = [] then [] else [cur.reverse]
  | c :: cs =>
    if pyIsSpace c then
      if cur = [] then pySplitAux [] cs else cur.reverse :: pySplitAux [] cs
    else pySplitAux (c :: cur) cs

/-- Python's `s.split()` (no argument): split on whitespace runs, dropping
empty pieces, so no leading/trailing/duplicate separators survive. -/
def pySplit (s : Str) : List Str :=
  pySplitAux [] s

/-- Python's `' '.join(words)`. -/
def joinSp : List Str → Str
  | [] => []
  | [w] => w
  | w :: w' :: ws => w ++ ' ' :: joinSp (w' :: ws)

/-- The single danda `।` (U+0964). -/
def danda : Char := '।'

/-- The double danda `॥` (U+0965). -/
def ddanda : Char := '॥'

/-- Python's `s.replace('।।', '॥')`: left-to-right, non-overlapping. -/
def replaceDD : Str → Str
  | [] => []
  | [c] => [c]
  | c₁ :: c₂ :: cs =>
    if c₁ = danda ∧ c₂ = danda then ddanda :: replaceDD cs
    else c₁ :: replaceDD (c₂ :: cs)

/-- Python's `s.replace('\n', ' ')`: a one-character pattern, hence a map. -/
def replaceNl (s : Str) : Str :=
  s.map (fun c => if c = '\n' then ' ' else c)

/-- The normalization `main` applies to each corrected sloka
(lines 250–255): newlines to spaces, whitespace runs collapsed by
`' '.join(s.split())`, then `।।` rewritten to `॥`. -/
def normalize_sloka (s : Str) : Str :=
  replaceDD (joinSp (pySplit (replaceNl s)))

/-- Python exception classes distinguished by the script. -/
inductive PyErr where
  | jsonDecodeError
  | attributeError
  | typeError
  | genericError
deriving Repr, DecidableEq

/-- Python/JSON values as manipulated by the script.  A Python `dict` is an
insertion-ordered association list with unique keys. -/
inductive PyVal where
  | vstr : Str → PyVal
  | vint : Int → PyVal
  | vbool : Bool → PyVal
  | vnull : PyVal
  | vlist : List PyVal → PyVal
  | vdict : List (Str × PyVal) → PyVal
deriving Repr, Inhabited

/-- `d.get(k)` on a Python dict: the binding of `k`, if any. -/
def dictGet (d : List (Str × PyVal)) (k : Str) : Option PyVal :=
  match d with
  | [] => none
  | (k', v) :: rest => if k' = k then some v else dictGet rest k

/-- Python `d[k] = v`: replace the value in place when `k` is present
(keeping its position), otherwise append the new binding. -/
def dictUpd (d : List (Str × PyVal)) (k : Str) (v : PyVal) : List (Str × PyVal) :=
  match d with
  | [] => [(k, v)]
  | (k', v') :: rest =>
    if k' = k then (k', v) :: rest else (k', v') :: dictUpd rest k v

/-- Python `s.startswith(pat)`. -/
def hasPre (pat s : Str) : Bool :=
  match pat, s with
  | [], _ => true
  | _ :: _, [] => false
  | p :: ps, c :: cs => p = c && hasPre ps cs

/-- Python `s.endswith(pat)`. -/
def hasSuf (pat s : Str) : Bool :=
  hasPre pat.reverse s.reverse

/-- Python `pat in s` substring containment on strings. -/
def hasSub (pat s : Str) : Bool :=
  match s with
  | [] => pat.isEmpty
  | c :: cs => hasPre pat (c :: cs) || hasSub pat cs

/-- The three-backtick code-fence delimiter (characters written with hex
escapes: `\x60` is the backtick). -/
def fence3 : Str := ['\x60', '\x60', '\x60']

/-- A fence opener with the `json` language tag. -/
def fenceJson : Str := ['\x60', '\x60', '\x60', 'j', 's', 'o', 'n']

/-- The `head` field key. -/
def headKey : Str := "head".toList

/-- The `verify` field key. -/
def verifyKey : Str := "verify".toList

/-- The `entries` field key. -/
def entriesKey : Str := "entries".toList

/-- `{"entries": []}`, the fallback value of `parse_sloka_with_claude`. -/
def emptyEntries : PyVal := .vdict [(entriesKey, .vlist [])]

/-- `correct_sloka_with_claude` (lines 45–58): ask the oracle and strip the
first text payload; on any raised exception return the original text. -/
def correct_sloka_with_claude (oracle : Str → Except PyErr Str)
    (sloka_text : Str) : Str :=
  match oracle sloka_text with
  | .ok reply => pyStrip reply
  | .error _ => sloka_text

/-- Lines 144–146: when the stripped reply starts with a fence and has more
than two lines, drop its first and last line. -/
def stripFenceLines (r0 : Str) : Str :=
  if hasPre fence3 r0 then
    (if 2 < (splitOnNl r0).length
     then joinNl (((splitOnNl r0).drop 1).dropLast)
     else r0)
  else r0

/-- Lines 147–148: drop a residual leading ````json` (7 characters). -/
def stripJsonTag (r1 : Str) : Str :=
  if hasPre fenceJson r1 then r1.drop 7 else r1

/-- Lines 149–150: drop a residual trailing fence (last 3 characters). -/
def stripTrailFence (r2 : Str) : Str :=
  if hasSuf fence3 r2 then r2.take (r2.length - 3) else r2

/-- The response sanitization of `parse_sloka_with_claude` (lines 141–152):
strip, drop the fence lines, drop residual fence markers, strip again. -/
def sanitize_response (t : Str) : Str :=
  pyStrip (stripTrailFence (stripJsonTag (stripFenceLines (pyStrip t))))

/-- The decode step of `parse_sloka_with_claude` on the oracle's raw text
payload (lines 141–163): sanitize, then `json.loads` (the `decoder`
parameter; `none` is a `json.JSONDecodeError`), falling back to
`{"entries": []}` on failure. -/
def enrich_reply (decoder : Str → Option PyVal) (payload : Str) : PyVal :=
  match decoder (sanitize_response payload) with
  | some v => v
  | none => emptyEntries

/-- `parse_sloka_with_claude` (lines 61–163): on an oracle exception return
`{"entries": []}`; otherwise sanitize and decode the reply text. -/
def parse_sloka_with_claude (decoder : Str → Option PyVal)
    (oracle : Str → Except PyErr Str) (sloka_text : Str) : PyVal :=
  match oracle sloka_text with
  | .ok text => enrich_reply decoder text
  | .error _ => emptyEntries

/-- Lines 273–282: rebuild one decoded entry that contains `head` so that
`verify: False` sits immediately after `head`; the subsequent
`new_entry[key] = value` pass re-assigns an original `verify` field in
place, and skips `head`.  An entry without `head` is left unmodified. -/
def add_verify_entry (entry : List (Str × PyVal)) : List (Str × PyVal) :=
  if entry.any (fun kv => kv.1 = headKey) then
    entry.foldl
      (fun acc kv => if kv.1 = headKey then acc else dictUpd acc kv.1 kv.2)
      [(headKey, (dictGet entry headKey).getD .vnull), (verifyKey, .vbool false)]
  else entry

/-- The body of the `for entry in parsed.get('entries', [])` loop (lines
272–282) for one element: a dict is rebuilt in place by `add_verify_entry`;
`'head' in entry` on a string is a substring test (then `entry['head']`
raises `TypeError` when it succeeds), on a list a membership test (likewise
`TypeError` on success), and on any other value raises `TypeError`. -/
def entry_step (entry : PyVal) : Except PyErr PyVal :=
  match entry with
  | .vdict d => .ok (.vdict (add_verify_entry d))
  | .vstr s => if hasSub headKey s then .error .typeError else .ok entry
  | .vlist l =>
    if l.any (fun x => match x with | .vstr s => s = headKey | _ => false) then
      .error .typeError
    else .ok entry
  | _ => .error .typeError

/-- Lines 269–284 for one parsed payload: run the verify-insertion loop over
`parsed.get('entries', [])`, mutating entries in place, and keep the
payload.  A non-dict `parsed` raises `AttributeError` at `parsed.get`;
iterating a non-list `entries` value follows Python's iteration semantics
(a string iterates its characters, a dict its keys, other values raise
`TypeError`). -/
def enrich_parsed (parsed : PyVal) : Except PyErr PyVal :=
  match parsed with
  | .vdict d =>
    match dictGet d entriesKey with
    | none => .ok parsed
    | some (.vlist items) => do
        let items' ← items.mapM entry_step
        pure (.vdict (dictUpd d entriesKey (.vlist items')))
    | some (.vstr _) => .ok parsed
    | some (.vdict d2) =>
        if d2.any (fun kv => hasSub headKey kv.1) then .error .typeError
        else .ok parsed
    | some _ => .error .typeError
  | _ => .error .attributeError

/-- The record sequence a persisted payload effectively carries: what
`parsed.get('entries', [])` yields when it is a list, else nothing. -/
def effective_records (v : PyVal) : List PyVal :=
  match v with
  | .vdict d =>
    match (dictGet d entriesKey).getD (.vlist []) with
    | .vlist l => l
    | _ => []
  | _ => []

/-- The correction loop of `main` (lines 244–257): correct and normalize
each sloka, accumulating `corrected_data[corrected_sloka] = {}`. -/
def correction_loop (oracle_c : Str → Except PyErr Str) (units : List Str) :
    List (Str × PyVal) :=
  units.foldl
    (fun acc u =>
      dictUpd acc (normalize_sloka (correct_sloka_with_claude oracle_c u)) (.vdict []))
    []

/-- The enrichment loop of `main` (lines 264–286): for each corrected sloka
in insertion order, parse and insert `verify`; an uncaught exception aborts
the whole run (no output is written). -/
def enrichment_loop (decoder : Str → Option PyVal)
    (oracle_p : Str → Except PyErr Str) (corrected : List (Str × PyVal)) :
    Except PyErr (List (Str × PyVal)) :=
  corrected.foldlM
    (fun acc kv => do
      let parsed' ← enrich_parsed (parse_sloka_with_claude decoder oracle_p kv.1)
      pure (dictUpd acc kv.1 parsed'))
    []

/-- The data flow of `main` after client initialization (lines 244–299):
correction loop, optional enrichment loop, and the final mapping handed to
the YAML writer (insertion order preserved, `sort_keys=False`). -/
def run_pipeline (oracle_c oracle_p : Str → Except PyErr Str)
    (decoder : Str → Option PyVal) (skip_enrichment : Bool)
    (units : List Str) : Except PyErr (List (Str × PyVal)) :=
  let corrected := correction_loop oracle_c units
  if skip_enrichment then .ok corrected
  else enrichment_loop decoder oracle_p corrected

/-- Whitespace skipping for the concrete JSON reader. -/
def jsSkip (s : Str) : Str := s.dropWhile pyIsSpace

/-- Read a JSON string body up to the closing quote; escape sequences are
rejected (none occur in the payloads considered here). -/
def jsString : Str → Option (Str × Str)
  | [] => none
  | c :: cs =>
    if c = '"' then some ([], cs)
    else if c = '\\' then none
    else (jsString cs).map (fun p => (c :: p.1, p.2))

mutual

/-- Fueled reader for one JSON value (strings, booleans, null, arrays,
objects). -/
def jsVal : Nat → Str → Option (PyVal × Str)
  | 0, _ => none
  | fuel + 1, s =>
    match jsSkip s with
    | [] => none
    | c :: cs =>
      if c = '"' then (jsString cs).map (fun p => (.vstr p.1, p.2))
      else if c = 't' then
        if hasPre "rue".toList cs then some (.vbool true, cs.drop 3) else none
      else if c = 'f' then
        if hasPre "alse".toList cs then some (.vbool false, cs.drop 4) else none
      else if c = 'n' then
        if hasPre "ull".toList cs then some (.vnull, cs.drop 3) else none
      else if c = '[' then
        match jsSkip cs with
        | ']' :: rest => some (.vlist [], rest)
        | rest => (jsItems fuel rest).map (fun p => (.vlist p.1, p.2))
      else if c = '\x7b' then
        match jsSkip cs with
        | '\x7d' :: rest => some (.vdict [], rest)
        | rest => (jsMembers fuel rest).map (fun p => (.vdict p.1, p.2))
      else none

/-- Fueled reader for the comma-separated items of a nonempty array. -/
def jsItems : Nat → Str → Option (List PyVal × Str)
  | 0, _ => none
  | fuel + 1, s => do
    let (v, r) ← jsVal fuel s
    match jsSkip r with
    | ',' :: r2 => (jsItems fuel r2).map (fun p => (v :: p.1, p.2))
    | ']' :: r2 => some ([v], r2)
    | _ => none

/-- Fueled reader for the comma-separated members of a nonempty object. -/
def jsMembers : Nat → Str → Option (List (Str × PyVal) × Str)
  | 0, _ => none
  | fuel + 1, s =>
    match jsSkip s with
    | '"' :: cs => do
      let (k, r) ← jsString cs
      match jsSkip r with
      | ':' :: r2 => do
        let (v, r3) ← jsVal fuel r2
        match jsSkip r3 with
        | ',' :: r4 => (jsMembers fuel r4).map (fun p => ((k, v) :: p.1, p.2))
        | '\x7d' :: r4 => some ([(k, v)], r4)
        | _ => none
      | _ => none
    | _ => none

end

/-- `json.loads`, realized concretely on the JSON fragment exercised by the
witnesses below (strings without escapes, booleans, null, arrays, objects):
succeed only when the whole input is consumed up to trailing whitespace. -/
def pyJsonDecode (s : Str) : Option PyVal := do
  let (v, rest) ← jsVal (s.length + 1) s
  if jsSkip rest = [] then some v else none

/-! ### Dictionary lemmas -/

theorem dictGet_cons (k' : Str) (v' : PyVal) (rest : List (Str × PyVal))
    (k : Str) :
    dictGet ((k', v') :: rest) k =
      if k' = k then some v' else dictGet rest k := rfl

theorem dictUpd_cons (k' : Str) (v' : PyVal) (rest : List (Str × PyVal))
    (k : Str) (v : PyVal) :
    dictUpd ((k', v') :: rest) k v =
      if k' = k then (k', v) :: rest else (k', v') :: dictUpd rest k v := rfl

theorem dictUpd_fresh (d : List (Str × PyVal)) (k : Str) (v : PyVal)
    (h : k ∉ d.map Prod.fst) : dictUpd d k v = d ++ [(k, v)] := by
  induction d with
  | nil => rfl
  | cons kv rest ih =>
    obtain ⟨k', v'⟩ := kv
    simp only [List.map_cons, List.mem_cons, not_or] at h
    rw [dictUpd_cons, if_neg (fun hk => h.1 hk.symm), ih h.2, List.cons_append]

theorem dictGet_eq_none (d : List (Str × PyVal)) (k : Str)
    (h : k ∉ d.map Prod.fst) : dictGet d k = none := by
  induction d with
  | nil => rfl
  | cons kv rest ih =>
    obtain ⟨k', v'⟩ := kv
    simp only [List.map_cons, List.mem_cons, not_or] at h
    rw [dictGet_cons, if_neg (fun hk => h.1 hk.symm), ih h.2]

theorem dictGet_some_mem (d : List (Str × PyVal)) (k : Str) (v : PyVal)
    (h : dictGet d k = some v) : k ∈ d.map Prod.fst := by
  induction d with
  | nil => simp [dictGet] at h
  | cons kv rest ih =>
    by_cases hk : kv.1 = k
    · simp [hk]
    · simp only [dictGet, if_neg hk] at h
      simp [ih h]

theorem dictUpd_map_fst_of_mem (d : List (Str × PyVal)) (k : Str) (v : PyVal)
    (h : k ∈ d.map Prod.fst) :
    (dictUpd d k v).map Prod.fst = d.map Prod.fst := by
  induction d with
  | nil => simp at h
  | cons kv rest ih =>
    by_cases hk : kv.1 = k
    · simp [dictUpd, hk]
    · simp only [List.map_cons, List.mem_cons] at h
      rcases h with h | h
      · exact absurd h.symm hk
      · simp [dictUpd, hk, ih h]

theorem dictUpd_map_fst (d : List (Str × PyVal)) (k : Str) (v : PyVal) :
    (dictUpd d k v).map Prod.fst =
      if k ∈ d.map Prod.fst then d.map Prod.fst else d.map Prod.fst ++ [k] := by
  by_cases h : k ∈ d.map Prod.fst
  · simp [h, dictUpd_map_fst_of_mem d k v h]
  · simp [h, dictUpd_fresh d k v h]

theorem dictUpd_nodup (d : List (Str × PyVal)) (k : Str) (v : PyVal)
    (h : (d.map Prod.fst).Nodup) : ((dictUpd d k v).map Prod.fst).Nodup := by
  rw [dictUpd_map_fst]
  by_cases hm : k ∈ d.map Prod.fst
  · simpa [hm]
  · simpa [hm, List.nodup_append] using h

theorem mem_dictUpd_map_fst (d : List (Str × PyVal)) (k k' : Str) (v : PyVal) :
    k' ∈ (dictUpd d k v).map Prod.fst ↔ k' ∈ d.map Prod.fst ∨ k' = k := by
  rw [dictUpd_map_fst]
  by_cases hm : k ∈ d.map Prod.fst
  · simp only [if_pos hm]
    constructor
    · exact Or.inl
    · rintro (h | rfl)
      · exact h
      · exact hm
  · simp [if_neg hm]

/-! ### The verify-insertion rebuild (`add_verify_entry`) -/

/-- The keys removed from an entry's tail by the rebuild. -/
def residueFields (e : List (Str × PyVal)) : List (Str × PyVal) :=
  e.filter (fun kv => !(kv.1 == headKey) && !(kv.1 == verifyKey))

theorem head_ne_verify : headKey ≠ verifyKey := by decide

theorem residueFields_cons (k : Str) (v : PyVal) (rest : List (Str × PyVal)) :
    residueFields ((k, v) :: rest) =
      if !(k == headKey) && !(k == verifyKey) then (k, v) :: residueFields rest
      else residueFields rest := by
  simp only [residueFields, List.filter_cons]

theorem add_verify_loop (e : List (Str × PyVal)) :
    ∀ (b : PyVal) (r : List (Str × PyVal)) (a : PyVal),
    (e.map Prod.fst).Nodup →
    (∀ k ∈ e.map Prod.fst, k ∉ r.map Prod.fst) →
    e.foldl (fun acc kv => if kv.1 = headKey then acc else dictUpd acc kv.1 kv.2)
        ((headKey, a) :: (verifyKey, b) :: r) =
      (headKey, a) :: (verifyKey, (dictGet e verifyKey).getD b) ::
        (r ++ residueFields e) := by
  induction e with
  | nil => intro b r a _ _; simp [dictGet, residueFields]
  | cons kv rest ih =>
    intro b r a hnd hdisj
    obtain ⟨k, v⟩ := kv
    simp only [List.map_cons, List.nodup_cons] at hnd
    obtain ⟨hknotin, hndrest⟩ := hnd
    rw [List.foldl_cons]
    by_cases hk : k = headKey
    · rw [if_pos hk]
      subst hk
      rw [ih b r a hndrest (fun k' hk' => hdisj k' (by simp [hk']))]
      rw [dictGet_cons, if_neg head_ne_verify, residueFields_cons]
      simp
    · rw [if_neg hk]
      by_cases hv : k = verifyKey
      · subst hv
        have hupd : dictUpd ((headKey, a) :: (verifyKey, b) :: r) verifyKey v =
            (headKey, a) :: (verifyKey, v) :: r := by
          rw [dictUpd_cons, if_neg head_ne_verify, dictUpd_cons, if_pos rfl]
        rw [hupd, ih v r a hndrest (fun k' hk' => hdisj k' (by simp [hk']))]
        have hnone : dictGet rest verifyKey = none :=
          dictGet_eq_none rest verifyKey hknotin
        rw [dictGet_cons, if_pos rfl, hnone, residueFields_cons]
        simp
      · have hnotr : k ∉ r.map Prod.fst := hdisj k (by simp)
        have hupd : dictUpd ((headKey, a) :: (verifyKey, b) :: r) k v =
            (headKey, a) :: (verifyKey, b) :: (r ++ [(k, v)]) := by
          rw [dictUpd_cons, if_neg (fun h => hk h.symm),
            dictUpd_cons, if_neg (fun h => hv h.symm),
            dictUpd_fresh r k v hnotr]
        rw [hupd, ih b (r ++ [(k, v)]) a hndrest ?_]
        · rw [dictGet_cons, if_neg hv, residueFields_cons]
          have hbk : (!(k == headKey) && !(k == verifyKey)) = true := by
            simp [hk, hv]
          rw [hbk]
          simp
        · intro k' hk'
          simp only [List.map_append, List.mem_append, List.map_cons,
            List.map_nil, List.mem_singleton, not_or]
          refine ⟨hdisj k' (by simp [hk']), ?_⟩
          intro h
          exact hknotin (h ▸ hk')

theorem any_head_of_dictGet (e : List (Str × PyVal)) (vh : PyVal)
    (h : dictGet e headKey = some vh) :
    e.any (fun kv => kv.1 = headKey) = true := by
  induction e with
  | nil => simp [dictGet] at h
  | cons kv rest ih =>
    by_cases hk : kv.1 = headKey
    · simp [hk]
    · simp only [dictGet, if_neg hk] at h
      simp [List.any_cons, ih h]

/-- Characterization of the rebuild for an entry containing `head`: the head
binding first, then `verify` — carrying the entry's own `verify` value when
present, `False` otherwise — then the other fields in original order. -/
theorem add_verify_entry_eq (e : List (Str × PyVal)) (vh : PyVal)
    (hnd : (e.map Prod.fst).Nodup) (hget : dictGet e headKey = some vh) :
    add_verify_entry e =
      (headKey, vh) :: (verifyKey, (dictGet e verifyKey).getD (.vbool false)) ::
        residueFields e := by
  have hany := any_head_of_dictGet e vh hget
  have := add_verify_loop e (.vbool false) [] ((dictGet e headKey).getD .vnull)
    hnd (by simp)
  simp only [add_verify_entry, if_pos hany] at *
  rw [this, hget]
  simp

/-- An entry without a `head` field is passed through unmodified. -/
theorem add_verify_entry_no_head (e : List (Str × PyVal))
    (h : ¬ e.any (fun kv => kv.1 = headKey)) : add_verify_entry e = e := by
  simp [add_verify_entry, h]

/-! ### Pipeline driver lemmas -/

/-- The corrected-text key one input unit contributes to the accumulator. -/
def ckey (oracle_c : Str → Except PyErr Str) (u : Str) : Str :=
  normalize_sloka (correct_sloka_with_claude oracle_c u)

theorem correction_loop_eq_foldl (oracle_c : Str → Except PyErr Str)
    (units : List Str) :
    correction_loop oracle_c units =
      units.foldl (fun acc u => dictUpd acc (ckey oracle_c u) (.vdict [])) [] := rfl

theorem correction_fold_mem (oracle_c : Str → Except PyErr Str)
    (units : List Str) (k : Str) :
    ∀ acc, (k ∈ (units.foldl
        (fun acc u => dictUpd acc (ckey oracle_c u) (.vdict [])) acc).map Prod.fst
      ↔ k ∈ acc.map Prod.fst ∨ k ∈ units.map (ckey oracle_c)) := by
  induction units with
  | nil => intro acc; simp
  | cons u rest ih =>
    intro acc
    rw [List.foldl_cons, ih]
    rw [mem_dictUpd_map_fst]
    simp only [List.map_cons, List.mem_cons]
    tauto

theorem correction_fold_nodup (oracle_c : Str → Except PyErr Str)
    (units : List Str) :
    ∀ acc, (acc.map Prod.fst).Nodup →
      ((units.foldl
        (fun acc u => dictUpd acc (ckey oracle_c u) (.vdict [])) acc).map
          Prod.fst).Nodup := by
  induction units with
  | nil => intro acc h; simpa
  | cons u rest ih =>
    intro acc h
    rw [List.foldl_cons]
    exact ih _ (dictUpd_nodup _ _ _ h)

theorem correction_loop_nodup (oracle_c : Str → Except PyErr Str)
    (units : List Str) :
    ((correction_loop oracle_c units).map Prod.fst).Nodup := by
  rw [correction_loop_eq_foldl]
  exact correction_fold_nodup oracle_c units [] (by simp)

theorem correction_loop_mem (oracle_c : Str → Except PyErr Str)
    (units : List Str) (k : Str) :
    k ∈ (correction_loop oracle_c units).map Prod.fst ↔
      k ∈ units.map (ckey oracle_c) := by
  rw [correction_loop_eq_foldl, correction_fold_mem]
  simp

theorem correction_fold_fresh (oracle_c : Str → Except PyErr Str)
    (units : List Str) :
    ∀ acc, (units.map (ckey oracle_c)).Nodup →
      (∀ u ∈ units, ckey oracle_c u ∉ acc.map Prod.fst) →
      units.foldl (fun acc u => dictUpd acc (ckey oracle_c u) (.vdict [])) acc =
        acc ++ units.map (fun u => (ckey oracle_c u, PyVal.vdict [])) := by
  induction units with
  | nil => intro acc _ _; simp
  | cons u rest ih =>
    intro acc hnd hfresh
    simp only [List.map_cons, List.nodup_cons] at hnd
    rw [List.foldl_cons, dictUpd_fresh _ _ _ (hfresh u (by simp)),
      ih _ hnd.2 ?_]
    · simp
    · intro u' hu'
      simp only [List.map_append, List.mem_append, List.map_cons, List.map_nil,
        List.mem_singleton, not_or]
      refine ⟨hfresh u' (by simp [hu']), ?_⟩
      intro h
      exact hnd.1 (h ▸ List.mem_map_of_mem (ckey oracle_c) hu')

/-- With collision-free corrected texts the corrected accumulator is exactly
the input units, in order, under the key function. -/
theorem correction_loop_eq_map (oracle_c : Str → Except PyErr Str)
    (units : List Str) (hnd : (units.map (ckey oracle_c)).Nodup) :
    correction_loop oracle_c units =
      units.map (fun u => (ckey oracle_c u, PyVal.vdict [])) := by
  rw [correction_loop_eq_foldl,
    correction_fold_fresh oracle_c units [] hnd (by simp)]
  simp

theorem enrich_fold_keys (decoder : Str → Option PyVal)
    (oracle_p : Str → Except PyErr Str) (corrected : List (Str × PyVal)) :
    ∀ (acc out : List (Str × PyVal)),
      (∀ k ∈ corrected.map Prod.fst, k ∉ acc.map Prod.fst) →
      (corrected.map Prod.fst).Nodup →
      corrected.foldlM
        (fun acc kv => do
          let parsed' ← enrich_parsed
            (parse_sloka_with_claude decoder oracle_p kv.1)
          pure (dictUpd acc kv.1 parsed')) acc = .ok out →
      out.map Prod.fst = acc.map Prod.fst ++ corrected.map Prod.fst := by
  induction corrected with
  | nil =>
    intro acc out _ _ h
    simp only [List.foldlM_nil] at h
    cases h
    simp
  | cons kv rest ih =>
    intro acc out hfresh hnd hfold
    obtain ⟨s, m⟩ := kv
    simp only [List.map_cons, List.nodup_cons] at hnd
    rw [List.foldlM_cons] at hfold
    cases hp : enrich_parsed (parse_sloka_with_claude decoder oracle_p s) with
    | error e =>
      rw [hp] at hfold
      simp [Bind.bind, Except.bind] at hfold
    | ok p =>
      rw [hp] at hfold
      simp only [Bind.bind, Except.bind, pure, Except.pure] at hfold
      have hs : s ∉ acc.map Prod.fst := hfresh s (by simp)
      rw [dictUpd_fresh acc s p hs] at hfold
      have := ih (acc ++ [(s, p)]) out ?_ hnd.2 hfold
      · rw [this]
        simp
      · intro k hk
        simp only [List.map_append, List.mem_append, List.map_cons,
          List.map_nil, List.mem_singleton, not_or]
        refine ⟨hfresh k (by simp [hk]), ?_⟩
        intro h
        exact hnd.1 (h ▸ hk)

/-- A successful enrichment loop preserves the corrected keys in order. -/
theorem enrichment_loop_keys (decoder : Str → Option PyVal)
    (oracle_p : Str → Except PyErr Str) (corrected out : List (Str × PyVal))
    (hnd : (corrected.map Prod.fst).Nodup)
    (h : enrichment_loop decoder oracle_p corrected = .ok out) :
    out.map Prod.fst = corrected.map Prod.fst := by
  have := enrich_fold_keys decoder oracle_p corrected [] out (by simp) hnd h
  simpa using this

theorem dictGet_of_any (e : List (Str × PyVal)) (k : Str)
    (h : e.any (fun kv => kv.1 = k)) : ∃ v, dictGet e k = some v := by
  induction e with
  | nil => simp at h
  | cons kv rest ih =>
    obtain ⟨k', v'⟩ := kv
    by_cases hk : k' = k
    · exact ⟨v', by rw [dictGet_cons, if_pos hk]⟩
    · simp only [List.any_cons, hk, decide_eq_true_eq, Bool.false_or] at h
      obtain ⟨v, hv⟩ := ih (by simpa using h)
      exact ⟨v, by rw [dictGet_cons, if_neg hk, hv]⟩

/-! ### Normalization lemmas (for idempotence) -/

/-- A good word: nonempty and free of whitespace. -/
def goodWord (w : Str) : Prop := w ≠ [] ∧ ∀ c ∈ w, ¬ pyIsSpace c

theorem pySplitAux_words (s : Str) :
    ∀ cur, (∀ c ∈ cur, ¬ pyIsSpace c) →
    ∀ w ∈ pySplitAux cur s, goodWord w := by
  induction s with
  | nil =>
    intro cur hcur w hw
    simp only [pySplitAux] at hw
    split at hw
    · simp at hw
    · rename_i hne
      simp only [List.mem_singleton] at hw
      subst hw
      exact ⟨by simpa using hne, fun c hc => hcur c (List.mem_reverse.mp hc)⟩
  | cons c cs ih =>
    intro cur hcur w hw
    simp only [pySplitAux] at hw
    by_cases hsp : pyIsSpace c
    · rw [if_pos hsp] at hw
      split at hw
      · exact ih [] (by simp) w hw
      · rename_i hne
        rcases List.mem_cons.mp hw with rfl | hmem
        · exact ⟨by simpa using hne, fun d hd => hcur d (List.mem_reverse.mp hd)⟩
        · exact ih [] (by simp) w hmem
    · rw [if_neg hsp] at hw
      refine ih (c :: cur) ?_ w hw
      intro d hd
      rcases List.mem_cons.mp hd with rfl | hmem
      · exact hsp
      · exact hcur d hmem

theorem pySplit_words (s : Str) : ∀ w ∈ pySplit s, goodWord w :=
  pySplitAux_words s [] (by simp)

theorem pySplitAux_word_prefix (w : Str) :
    ∀ cur cs, (∀ c ∈ w, ¬ pyIsSpace c) →
      pySplitAux cur (w ++ cs) = pySplitAux (w.reverse ++ cur) cs := by
  induction w with
  | nil => intro cur cs _; simp
  | cons c w' ih =>
    intro cur cs hw
    have hc : ¬ pyIsSpace c := hw c (by simp)
    simp only [List.cons_append, pySplitAux, if_neg hc]
    rw [show w'.append cs = w' ++ cs from rfl,
      ih (c :: cur) cs (fun d hd => hw d (by simp [hd]))]
    simp

theorem pySplit_joinSp (ws : List Str) (h : ∀ w ∈ ws, goodWord w) :
    pySplit (joinSp ws) = ws := by
  induction ws with
  | nil => rfl
  | cons w ws' ih =>
    obtain ⟨hne, hnsp⟩ := h w (by simp)
    cases ws' with
    | nil =>
      show pySplitAux [] (joinSp [w]) = [w]
      rw [show joinSp [w] = w from rfl,
        show w = w ++ [] from (List.append_nil w).symm,
        pySplitAux_word_prefix w [] [] hnsp]
      simp only [List.append_nil, pySplitAux]
      rw [if_neg (by simpa using hne)]
      simp
    | cons w₂ ws'' =>
      show pySplitAux [] (joinSp (w :: w₂ :: ws'')) = w :: w₂ :: ws''
      rw [show joinSp (w :: w₂ :: ws'') = w ++ ' ' :: joinSp (w₂ :: ws'') from rfl,
        pySplitAux_word_prefix w [] _ hnsp]
      simp only [List.append_nil, pySplitAux]
      rw [if_pos (by decide), if_neg (by simpa using hne)]
      rw [List.reverse_reverse]
      exact congrArg (w :: ·) (ih (fun w' hw' => h w' (by simp [hw'])))

theorem joinSp_chars (ws : List Str) :
    ∀ c ∈ joinSp ws, (∃ w ∈ ws, c ∈ w) ∨ c = ' ' := by
  induction ws with
  | nil => simp [joinSp]
  | cons w ws' ih =>
    cases ws' with
    | nil =>
      intro c hc
      exact Or.inl ⟨w, by simp, by simpa [joinSp] using hc⟩
    | cons w₂ ws'' =>
      intro c hc
      rw [show joinSp (w :: w₂ :: ws'') = w ++ ' ' :: joinSp (w₂ :: ws'') from rfl]
        at hc
      rcases List.mem_append.mp hc with hw | hrest
      · exact Or.inl ⟨w, by simp, hw⟩
      · rcases List.mem_cons.mp hrest with rfl | hmem
        · exact Or.inr rfl
        · rcases ih c hmem with ⟨w', hw', hc'⟩ | hsp
          · exact Or.inl ⟨w', by simp [hw'], hc'⟩
          · exact Or.inr hsp

/-- Adjacent-double-danda detector (the pattern `s.replace` rewrites). -/
def hasDD : Str → Bool
  | c₁ :: c₂ :: cs => (c₁ = danda && c₂ = danda) || hasDD (c₂ :: cs)
  | _ => false

theorem hasDD_cons_of_ne (c : Char) (s : Str) (hc : c ≠ danda) :
    hasDD (c :: s) = hasDD s := by
  cases s with
  | nil => rfl
  | cons c₂ cs => simp [hasDD, hc]

theorem replaceDD_cons_of_ne (c : Char) (s : Str) (hc : c ≠ danda) :
    replaceDD (c :: s) = c :: replaceDD s := by
  cases s with
  | nil => rfl
  | cons c₂ cs => simp [replaceDD, hc]

theorem replaceDD_chars : ∀ (s : Str), ∀ c' ∈ replaceDD s, c' ∈ s ∨ c' = ddanda
  | [] => by simp [replaceDD]
  | [c] => by simp [replaceDD]
  | c₁ :: c₂ :: cs => by
    intro c' hc'
    by_cases hp : c₁ = danda ∧ c₂ = danda
    · rw [replaceDD, if_pos hp] at hc'
      rcases List.mem_cons.mp hc' with rfl | hmem
      · exact Or.inr rfl
      · rcases replaceDD_chars cs c' hmem with hin | hdd
        · exact Or.inl (by simp [hin])
        · exact Or.inr hdd
    · rw [replaceDD, if_neg hp] at hc'
      rcases List.mem_cons.mp hc' with rfl | hmem
      · exact Or.inl (by simp)
      · rcases replaceDD_chars (c₂ :: cs) c' hmem with hin | hdd
        · exact Or.inl (by simpa using Or.inr (List.mem_cons.mp hin))
        · exact Or.inr hdd

theorem replaceDD_no_hasDD : ∀ (s : Str), hasDD (replaceDD s) = false
  | [] => rfl
  | [_] => rfl
  | c₁ :: c₂ :: cs => by
    by_cases hp : c₁ = danda ∧ c₂ = danda
    · rw [replaceDD, if_pos hp,
        hasDD_cons_of_ne ddanda (replaceDD cs) (by decide)]
      exact replaceDD_no_hasDD cs
    · rw [replaceDD, if_neg hp]
      by_cases hc₁ : c₁ = danda
      · have hc₂ : c₂ ≠ danda := fun h => hp ⟨hc₁, h⟩
        rw [replaceDD_cons_of_ne c₂ cs hc₂]
        have h1 : hasDD (c₁ :: c₂ :: replaceDD cs) = hasDD (c₂ :: replaceDD cs) := by
          simp [hasDD, hc₂]
        rw [h1, ← replaceDD_cons_of_ne c₂ cs hc₂]
        exact replaceDD_no_hasDD (c₂ :: cs)
      · rw [hasDD_cons_of_ne c₁ _ hc₁]
        exact replaceDD_no_hasDD (c₂ :: cs)

theorem replaceDD_of_no_hasDD : ∀ (s : Str), hasDD s = false → replaceDD s = s
  | [], _ => rfl
  | [_], _ => rfl
  | c₁ :: c₂ :: cs, h => by
    simp only [hasDD, Bool.or_eq_false_iff, Bool.and_eq_false_iff] at h
    have hp : ¬ (c₁ = danda ∧ c₂ = danda) := by
      intro ⟨h1, h2⟩
      rcases h.1 with hh | hh <;> simp [h1, h2] at hh
    rw [replaceDD, if_neg hp, replaceDD_of_no_hasDD (c₂ :: cs) h.2]

theorem replaceDD_cons₂ (c₁ c₂ : Char) (cs : Str) :
    replaceDD (c₁ :: c₂ :: cs) =
      if c₁ = danda ∧ c₂ = danda then ddanda :: replaceDD cs
      else c₁ :: replaceDD (c₂ :: cs) := by
  rw [replaceDD]

theorem replaceDD_append_sep :
    ∀ (a : Str) (c : Char) (b : Str), c ≠ danda →
      replaceDD (a ++ c :: b) = replaceDD a ++ c :: replaceDD b
  | [], c, b, hc => by
    simp only [List.nil_append]
    rw [replaceDD_cons_of_ne c b hc]
    rfl
  | [c₁], c, b, hc => by
    have hp : ¬ (c₁ = danda ∧ c = danda) := fun h => hc h.2
    simp only [List.cons_append, List.nil_append]
    rw [replaceDD_cons₂, if_neg hp, replaceDD_cons_of_ne c b hc]
    rfl
  | c₁ :: c₂ :: cs, c, b, hc => by
    by_cases hp : c₁ = danda ∧ c₂ = danda
    · simp only [List.cons_append]
      rw [replaceDD_cons₂, if_pos hp, replaceDD_append_sep cs c b hc,
        replaceDD_cons₂ c₁ c₂ cs, if_pos hp]
      rfl
    · simp only [List.cons_append]
      rw [replaceDD_cons₂, if_neg hp,
        show (c₂ :: (cs ++ c :: b)) = (c₂ :: cs) ++ c :: b from rfl,
        replaceDD_append_sep (c₂ :: cs) c b hc,
        replaceDD_cons₂ c₁ c₂ cs, if_neg hp]
      rfl

theorem replaceDD_joinSp (ws : List Str) :
    replaceDD (joinSp ws) = joinSp (ws.map replaceDD) := by
  induction ws with
  | nil => rfl
  | cons w ws' ih =>
    cases ws' with
    | nil => rfl
    | cons w₂ ws'' =>
      rw [show joinSp (w :: w₂ :: ws'') = w ++ ' ' :: joinSp (w₂ :: ws'') from rfl,
        replaceDD_append_sep w ' ' _ (by decide), ih]
      rfl

theorem replaceDD_ne_nil (w : Str) (h : w ≠ []) : replaceDD w ≠ [] := by
  match w with
  | [c] => simp [replaceDD]
  | c₁ :: c₂ :: cs =>
    rw [replaceDD]
    split <;> simp

theorem replaceDD_goodWord (w : Str) (h : goodWord w) : goodWord (replaceDD w) := by
  refine ⟨replaceDD_ne_nil w h.1, ?_⟩
  intro c hc
  rcases replaceDD_chars w c hc with hin | rfl
  · exact h.2 c hin
  · decide

theorem replaceNl_of_no_nl (s : Str) (h : ∀ c ∈ s, c ≠ '\n') :
    replaceNl s = s := by
  unfold replaceNl
  rw [List.map_congr_left (fun c hc => if_neg (h c hc))]
  exact List.map_id' s

/-- C5: the CorrectionStage normalization of `main` (collapse line breaks
and whitespace runs to single spaces, rewrite `।।` to `॥`) is idempotent:
for every string, normalizing the normalized result yields a value
identical to normalizing once. -/
theorem normalize_sloka_idempotent (s : Str) :
    normalize_sloka (normalize_sloka s) = normalize_sloka s := by
  set ws := pySplit (replaceNl s) with hws
  have hwords : ∀ w ∈ ws, goodWord w := pySplit_words _
  have hmapgood : ∀ w ∈ ws.map replaceDD, goodWord w := by
    intro w hw
    obtain ⟨w', hw', rfl⟩ := List.mem_map.mp hw
    exact replaceDD_goodWord w' (hwords w' hw')
  have ht : normalize_sloka s = joinSp (ws.map replaceDD) := by
    rw [normalize_sloka, ← hws, replaceDD_joinSp]
  have hnonl : ∀ c ∈ normalize_sloka s, c ≠ '\n' := by
    rw [ht]
    intro c hc
    rcases joinSp_chars _ c hc with ⟨w, hw, hcw⟩ | rfl
    · intro hnl
      exact (hmapgood w hw).2 c hcw (by rw [hnl]; decide)
    · decide
  rw [show normalize_sloka (normalize_sloka s) =
      replaceDD (joinSp (pySplit (replaceNl (normalize_sloka s)))) from rfl]
  rw [replaceNl_of_no_nl _ hnonl]
  rw [show pySplit (normalize_sloka s) = ws.map replaceDD from by
    rw [ht]; exact pySplit_joinSp _ hmapgood]
  rw [← ht]
  have hfix : hasDD (normalize_sloka s) = false := by
    rw [normalize_sloka, ← hws]
    exact replaceDD_no_hasDD _
  exact replaceDD_of_no_hasDD _ hfix

/-! ### Sanitization lemmas (for the code-fence claim) -/

theorem dropWhile_space_cons (c : Char) (s : Str) (hc : ¬ pyIsSpace c) :
    (c :: s).dropWhile pyIsSpace = c :: s := by
  simp [List.dropWhile_cons, hc]

theorem dropWhile_space_append (a : Str) (c : Char) (b : Str)
    (hc : ¬ pyIsSpace c) :
    (a ++ c :: b).dropWhile pyIsSpace = a.dropWhile pyIsSpace ++ c :: b := by
  induction a with
  | nil => simp [List.dropWhile_cons, hc]
  | cons d a' ih =>
    by_cases hd : pyIsSpace d
    · simp [List.dropWhile_cons, hd, ih]
    · simp [List.dropWhile_cons, hd]

theorem dropTrail_append (a : Str) (c : Char) (b : Str) (hc : ¬ pyIsSpace c) :
    dropTrail (a ++ c :: b) = a ++ c :: dropTrail b := by
  unfold dropTrail
  rw [show (a ++ c :: b).reverse = b.reverse ++ c :: a.reverse from by simp,
    dropWhile_space_append _ c _ hc]
  simp

theorem dropWhile_space_all (ws : Str) (h : ∀ c ∈ ws, pyIsSpace c) :
    ws.dropWhile pyIsSpace = [] :=
  List.dropWhile_eq_nil_iff.mpr h

theorem dropTrail_space_all (ws : Str) (h : ∀ c ∈ ws, pyIsSpace c) :
    dropTrail ws = [] := by
  unfold dropTrail
  rw [dropWhile_space_all _ (fun c hc => h c (List.mem_reverse.mp hc))]
  rfl

theorem dropWhile_space_idem (s : Str) :
    (s.dropWhile pyIsSpace).dropWhile pyIsSpace = s.dropWhile pyIsSpace := by
  induction s with
  | nil => rfl
  | cons c cs ih =>
    by_cases hc : pyIsSpace c
    · simp [List.dropWhile_cons, hc, ih]
    · simp [List.dropWhile_cons, hc]

theorem dropTrail_idem (s : Str) : dropTrail (dropTrail s) = dropTrail s := by
  unfold dropTrail
  rw [List.reverse_reverse, dropWhile_space_idem]

theorem length_dropWhile_le {α : Type} (p : α → Bool) (l : List α) :
    (l.dropWhile p).length ≤ l.length := by
  induction l with
  | nil => simp
  | cons c cs ih =>
    simp only [List.dropWhile_cons]
    split
    · exact Nat.le_succ_of_le ih
    · simp

theorem dropWhile_eq_self_head (c : Char) (rest : Str)
    (h : (c :: rest).dropWhile pyIsSpace = c :: rest) : ¬ pyIsSpace c := by
  intro hc
  rw [List.dropWhile_cons, if_pos hc] at h
  have := length_dropWhile_le pyIsSpace rest
  rw [h] at this
  simp at this

theorem dropTrail_prefix (s : Str) : ∃ w, s = dropTrail s ++ w := by
  refine ⟨(s.reverse.takeWhile pyIsSpace).reverse, ?_⟩
  unfold dropTrail
  rw [← List.reverse_append, List.takeWhile_append_dropWhile, List.reverse_reverse]

theorem pyStrip_idem (s : Str) : pyStrip (pyStrip s) = pyStrip s := by
  unfold pyStrip
  have hX : (s.dropWhile pyIsSpace).dropWhile pyIsSpace = s.dropWhile pyIsSpace :=
    dropWhile_space_idem s
  set X := s.dropWhile pyIsSpace with hXdef
  have hY : (dropTrail X).dropWhile pyIsSpace = dropTrail X := by
    cases hYc : dropTrail X with
    | nil => rfl
    | cons c Y' =>
      obtain ⟨w, hw⟩ := dropTrail_prefix X
      rw [hYc] at hw
      have hch : ¬ pyIsSpace c := by
        apply dropWhile_eq_self_head c (Y' ++ w)
        rw [← List.cons_append, ← hw]
        exact hX
      exact dropWhile_space_cons c Y' hch
  rw [hY, dropTrail_idem]

theorem hasPre_append (pat rest : Str) : hasPre pat (pat ++ rest) = true := by
  induction pat with
  | nil => rfl
  | cons c pat' ih => simp [hasPre, ih]

theorem hasPre_iff (pat s : Str) :
    hasPre pat s = true ↔ ∃ r, s = pat ++ r := by
  constructor
  · intro h
    induction pat generalizing s with
    | nil => exact ⟨s, rfl⟩
    | cons c pat' ih =>
      cases s with
      | nil => simp [hasPre] at h
      | cons d s' =>
        simp only [hasPre, Bool.and_eq_true, decide_eq_true_eq] at h
        obtain ⟨r, hr⟩ := ih s' h.2
        exact ⟨r, by rw [h.1, hr]; rfl⟩
  · rintro ⟨r, rfl⟩
    exact hasPre_append pat r

theorem hasSuf_iff (pat s : Str) :
    hasSuf pat s = true ↔ ∃ r, s = r ++ pat := by
  unfold hasSuf
  rw [hasPre_iff]
  constructor
  · rintro ⟨r, hr⟩
    refine ⟨r.reverse, ?_⟩
    have := congrArg List.reverse hr
    simpa using this
  · rintro ⟨r, rfl⟩
    exact ⟨r.reverse, by simp⟩

theorem splitOnNl_ne_nil (s : Str) : splitOnNl s ≠ [] := by
  cases s with
  | nil => simp [splitOnNl]
  | cons c cs =>
    unfold splitOnNl
    split
    · simp
    · split <;> simp

theorem splitOnNl_cons (c : Char) (cs : Str) :
    splitOnNl (c :: cs) =
      if c = '\n' then [] :: splitOnNl cs
      else match splitOnNl cs with
           | [] => [[c]]
           | l :: ls => (c :: l) :: ls := by
  rw [splitOnNl]

theorem splitOnNl_append_nl (a b : Str) :
    splitOnNl (a ++ '\n' :: b) = splitOnNl a ++ splitOnNl b := by
  induction a with
  | nil =>
    show splitOnNl ('\n' :: b) = splitOnNl [] ++ splitOnNl b
    rw [splitOnNl_cons, if_pos rfl]
    rfl
  | cons c a' ih =>
    show splitOnNl (c :: (a' ++ '\n' :: b)) = splitOnNl (c :: a') ++ splitOnNl b
    rw [splitOnNl_cons, splitOnNl_cons]
    by_cases hc : c = '\n'
    · rw [if_pos hc, if_pos hc, ih]
      rfl
    · rw [if_neg hc, if_neg hc, ih]
      cases hsp : splitOnNl a' with
      | nil => exact absurd hsp (splitOnNl_ne_nil a')
      | cons l ls => rfl

theorem splitOnNl_no_nl (a : Str) (h : ∀ c ∈ a, c ≠ '\n') :
    splitOnNl a = [a] := by
  induction a with
  | nil => rfl
  | cons c a' ih =>
    rw [splitOnNl_cons, if_neg (h c (by simp)),
      ih (fun c' hc' => h c' (by simp [hc']))]

theorem joinNl_splitOnNl (s : Str) : joinNl (splitOnNl s) = s := by
  induction s with
  | nil => rfl
  | cons c cs ih =>
    rw [splitOnNl_cons]
    by_cases hc : c = '\n'
    · rw [if_pos hc]
      cases hsp : splitOnNl cs with
      | nil => exact absurd hsp (splitOnNl_ne_nil cs)
      | cons l ls =>
        have ih' : joinNl (l :: ls) = cs := by rw [← hsp]; exact ih
        show joinNl ([] :: l :: ls) = c :: cs
        rw [show joinNl ([] :: l :: ls) = [] ++ '\n' :: joinNl (l :: ls) from rfl,
          ih', hc]
        rfl
    · rw [if_neg hc]
      cases hsp : splitOnNl cs with
      | nil => exact absurd hsp (splitOnNl_ne_nil cs)
      | cons l ls =>
        have ih' : joinNl (l :: ls) = cs := by rw [← hsp]; exact ih
        cases ls with
        | nil =>
          show c :: l = c :: cs
          rw [show (l : Str) = joinNl [l] from rfl, ih']
        | cons l' ls' =>
          show joinNl ((c :: l) :: l' :: ls') = c :: cs
          rw [show joinNl ((c :: l) :: l' :: ls') =
              (c :: l) ++ '\n' :: joinNl (l' :: ls') from rfl]
          rw [show joinNl (l :: l' :: ls') = l ++ '\n' :: joinNl (l' :: ls') from rfl]
            at ih'
          rw [← ih']
          rfl

theorem fence3_no_nl : ∀ c ∈ fence3, c ≠ '\n' := by decide

theorem pyStrip_has_fence_pre (p : Str) (hpre : hasPre fenceJson p = true) :
    hasPre fence3 (pyStrip p) = true := by
  obtain ⟨r, rfl⟩ := (hasPre_iff _ _).mp hpre
  unfold pyStrip
  rw [show fenceJson ++ r =
      '\x60' :: ('\x60' :: '\x60' :: ('j' :: 's' :: 'o' :: 'n' :: r)) from rfl,
    dropWhile_space_cons _ _ (by decide),
    show ('\x60' : Char) :: ('\x60' :: '\x60' :: ('j' :: 's' :: 'o' :: 'n' :: r)) =
      ['\x60', '\x60'] ++ '\x60' :: ('j' :: 's' :: 'o' :: 'n' :: r) from rfl,
    dropTrail_append _ _ _ (by decide)]
  exact hasPre_append fence3 _

theorem pyStrip_has_fence_suf (p : Str) (hsuf : hasSuf fence3 p = true) :
    hasSuf fence3 (pyStrip p) = true := by
  obtain ⟨r, rfl⟩ := (hasSuf_iff _ _).mp hsuf
  unfold pyStrip
  rw [show r ++ fence3 = r ++ '\x60' :: ['\x60', '\x60'] from rfl,
    dropWhile_space_append _ _ _ (by decide),
    show r.dropWhile pyIsSpace ++ '\x60' :: ['\x60', '\x60'] =
      (r.dropWhile pyIsSpace ++ ['\x60', '\x60']) ++ '\x60' :: ([] : Str)
      from by simp,
    dropTrail_append _ _ _ (by decide)]
  apply (hasSuf_iff _ _).mpr
  refine ⟨r.dropWhile pyIsSpace, ?_⟩
  rw [show dropTrail ([] : Str) = [] from rfl]
  simp [fence3]

theorem hasPre_fenceJson_of_fence3 (s : Str)
    (h : hasPre fenceJson s = true) : hasPre fence3 s = true := by
  obtain ⟨r, rfl⟩ := (hasPre_iff _ _).mp h
  rw [show fenceJson ++ r = fence3 ++ ("json".toList ++ r) from rfl]
  exact hasPre_append fence3 _

/-- Sanitizing an un-fenced payload that (stripped) neither starts nor ends
with a fence is just stripping it. -/
theorem sanitize_unfenced (p : Str)
    (h4 : hasPre fence3 (pyStrip p) = false)
    (h5 : hasSuf fence3 (pyStrip p) = false) :
    sanitize_response p = pyStrip p := by
  have hjson : hasPre fenceJson (pyStrip p) = false := by
    cases hj : hasPre fenceJson (pyStrip p) with
    | false => rfl
    | true => rw [hasPre_fenceJson_of_fence3 _ hj] at h4; cases h4
  have e1 : stripFenceLines (pyStrip p) = pyStrip p := by
    unfold stripFenceLines
    rw [h4]
    simp
  have e2 : stripJsonTag (pyStrip p) = pyStrip p := by
    unfold stripJsonTag
    rw [hjson]
    simp
  have e3 : stripTrailFence (pyStrip p) = pyStrip p := by
    unfold stripTrailFence
    rw [h5]
    simp
  unfold sanitize_response
  rw [e1, e2, e3, pyStrip_idem]

/-- Sanitizing a fence-wrapped payload recovers the stripped payload: the
first and last fence lines and any surrounding whitespace are removed. -/
theorem sanitize_fenced (ws1 ws2 tag p : Str)
    (hws1 : ∀ c ∈ ws1, pyIsSpace c) (hws2 : ∀ c ∈ ws2, pyIsSpace c)
    (htag : ∀ c ∈ tag, c ≠ '\n')
    (h4 : hasPre fence3 (pyStrip p) = false)
    (h5 : hasSuf fence3 (pyStrip p) = false) :
    sanitize_response
        (ws1 ++ fence3 ++ tag ++ '\n' :: p ++ '\n' :: fence3 ++ ws2)
      = pyStrip p := by
  have hjsonp : hasPre fenceJson p = false := by
    cases hj : hasPre fenceJson p with
    | false => rfl
    | true => rw [pyStrip_has_fence_pre p hj] at h4; cases h4
  have hsufp : hasSuf fence3 p = false := by
    cases hj : hasSuf fence3 p with
    | false => rfl
    | true => rw [pyStrip_has_fence_suf p hj] at h5; cases h5
  have hstrip : pyStrip (ws1 ++ fence3 ++ tag ++ '\n' :: p ++ '\n' :: fence3 ++ ws2)
      = fence3 ++ tag ++ '\n' :: p ++ '\n' :: fence3 := by
    unfold pyStrip
    rw [show ws1 ++ fence3 ++ tag ++ '\n' :: p ++ '\n' :: fence3 ++ ws2 =
          ws1 ++ '\x60' ::
            ('\x60' :: '\x60' :: (tag ++ '\n' :: p ++ '\n' :: fence3 ++ ws2))
        from by simp [fence3],
      dropWhile_space_append _ _ _ (by decide), dropWhile_space_all ws1 hws1,
      List.nil_append,
      show ('\x60' : Char) ::
            ('\x60' :: '\x60' :: (tag ++ '\n' :: p ++ '\n' :: fence3 ++ ws2)) =
          ('\x60' :: '\x60' :: '\x60' :: (tag ++ '\n' :: p ++ ['\n', '\x60', '\x60']))
            ++ '\x60' :: ws2
        from by simp [fence3],
      dropTrail_append _ _ _ (by decide), dropTrail_space_all ws2 hws2]
    simp [fence3]
  have hsplit : splitOnNl (fence3 ++ tag ++ '\n' :: p ++ '\n' :: fence3) =
      (fence3 ++ tag) :: (splitOnNl p ++ [fence3]) := by
    rw [show fence3 ++ tag ++ '\n' :: p ++ '\n' :: fence3 =
          (fence3 ++ tag) ++ '\n' :: (p ++ '\n' :: fence3) from by simp,
      splitOnNl_append_nl, splitOnNl_append_nl,
      splitOnNl_no_nl (fence3 ++ tag) ?_, splitOnNl_no_nl fence3 fence3_no_nl]
    · rfl
    · intro c hc
      rcases List.mem_append.mp hc with h | h
      · exact fence3_no_nl c h
      · exact htag c h
  have hpre : hasPre fence3 (fence3 ++ tag ++ '\n' :: p ++ '\n' :: fence3) = true := by
    rw [show fence3 ++ tag ++ '\n' :: p ++ '\n' :: fence3 =
        fence3 ++ (tag ++ '\n' :: p ++ '\n' :: fence3) from by simp]
    exact hasPre_append fence3 _
  have hlen2 : 2 < ((fence3 ++ tag) :: (splitOnNl p ++ [fence3])).length := by
    cases hsp : splitOnNl p with
    | nil => exact absurd hsp (splitOnNl_ne_nil p)
    | cons l ls => simp
  have e1 : stripFenceLines (fence3 ++ tag ++ '\n' :: p ++ '\n' :: fence3) = p := by
    unfold stripFenceLines
    rw [hpre, if_pos rfl, hsplit, if_pos hlen2, List.drop_one, List.tail_cons,
      show (splitOnNl p ++ [fence3]).dropLast = splitOnNl p from by simp,
      joinNl_splitOnNl]
  have e2 : stripJsonTag p = p := by
    unfold stripJsonTag
    rw [hjsonp]
    simp
  have e3 : stripTrailFence p = p := by
    unfold stripTrailFence
    rw [hsufp]
    simp
  unfold sanitize_response
  rw [hstrip, e1, e2, e3]

/-! ### Claim theorems -/

/-- C4: a record-set payload wrapped in surrounding code-fence delimiters
(with or without a language tag, plus optional leading/trailing whitespace)
is parsed by the enrichment stage to the same record set as the unfenced
payload.  The last two hypotheses say the payload itself, stripped, neither
starts nor ends with a fence marker — true of any JSON-object record-set
text, which starts with a brace and ends with a brace. -/
theorem enrich_fenced_reply_eq_unfenced
    (decoder : Str → Option PyVal) (ws1 ws2 tag p : Str)
    (hws1 : ∀ c ∈ ws1, pyIsSpace c) (hws2 : ∀ c ∈ ws2, pyIsSpace c)
    (htag : ∀ c ∈ tag, c ≠ '\n')
    (h4 : hasPre fence3 (pyStrip p) = false)
    (h5 : hasSuf fence3 (pyStrip p) = false) :
    enrich_reply decoder
        (ws1 ++ fence3 ++ tag ++ '\n' :: p ++ '\n' :: fence3 ++ ws2)
      = enrich_reply decoder p := by
  unfold enrich_reply
  rw [sanitize_fenced ws1 ws2 tag p hws1 hws2 htag h4 h5,
    sanitize_unfenced p h4 h5]

/-- Witness for C4: the payload `{"entries": []}` wrapped in a `json`-tagged
fence with surrounding whitespace. -/
theorem enrich_fenced_reply_eq_unfenced_witness :
    (∀ c ∈ " ".toList, pyIsSpace c) ∧
    (∀ c ∈ "\n ".toList, pyIsSpace c) ∧
    (∀ c ∈ "json".toList, c ≠ '\n') ∧
    hasPre fence3 (pyStrip "\x7b\"entries\": []\x7d".toList) = false ∧
    hasSuf fence3 (pyStrip "\x7b\"entries\": []\x7d".toList) = false ∧
    enrich_reply pyJsonDecode
        (" ".toList ++ fence3 ++ "json".toList ++
          '\n' :: "\x7b\"entries\": []\x7d".toList ++
          '\n' :: fence3 ++ "\n ".toList)
      = enrich_reply pyJsonDecode "\x7b\"entries\": []\x7d".toList :=
  ⟨by decide, by decide, by decide, rfl, rfl,
    enrich_fenced_reply_eq_unfenced pyJsonDecode " ".toList "\n ".toList
      "json".toList "\x7b\"entries\": []\x7d".toList
      (by decide) (by decide) (by decide) rfl rfl⟩

/-- C2: for every input unit on which the text-correction oracle raises,
`correct_sloka_with_claude` does not raise (it is a total Lean function)
and returns the original unit text unchanged. -/
theorem correction_falls_back_to_original
    (oracle : Str → Except PyErr Str) (sloka : Str) (e : PyErr)
    (h : oracle sloka = .error e) :
    correct_sloka_with_claude oracle sloka = sloka := by
  simp [correct_sloka_with_claude, h]

/-- Witness for C2 at a concrete unit and an always-raising oracle. -/
theorem correction_falls_back_to_original_witness :
    (fun _ : Str => (Except.error PyErr.genericError : Except PyErr Str))
        "क".toList = Except.error PyErr.genericError ∧
    correct_sloka_with_claude (fun _ => Except.error PyErr.genericError)
        "क".toList = "क".toList :=
  ⟨rfl, correction_falls_back_to_original _ _ PyErr.genericError rfl⟩

/-- C3: for every oracle reply whose text does not decode as JSON,
`parse_sloka_with_claude` (a total function: no exception escapes) returns
`{"entries": []}`, whose record sequence is empty. -/
theorem enrich_malformed_json_yields_empty
    (decoder : Str → Option PyVal) (oracle : Str → Except PyErr Str)
    (sloka text : Str) (hok : oracle sloka = .ok text)
    (hdec : decoder (sanitize_response text) = none) :
    parse_sloka_with_claude decoder oracle sloka = emptyEntries ∧
    effective_records (parse_sloka_with_claude decoder oracle sloka) = [] := by
  have h1 : parse_sloka_with_claude decoder oracle sloka = emptyEntries := by
    simp [parse_sloka_with_claude, enrich_reply, hok, hdec]
  refine ⟨h1, ?_⟩
  rw [h1]
  simp [effective_records, emptyEntries, dictGet]

/-- Witness for C3: the literal reply `not json` fails to decode and the
stage yields `{"entries": []}`. -/
theorem enrich_malformed_json_yields_empty_witness :
    (fun _ : Str => (Except.ok "not json".toList : Except PyErr Str))
        "स".toList = Except.ok "not json".toList ∧
    pyJsonDecode (sanitize_response "not json".toList) = none ∧
    parse_sloka_with_claude pyJsonDecode
        (fun _ => Except.ok "not json".toList) "स".toList = emptyEntries :=
  ⟨rfl, rfl,
    (enrich_malformed_json_yields_empty pyJsonDecode
      (fun _ => Except.ok "not json".toList) "स".toList "not json".toList
      rfl rfl).1⟩

/-- C7: an oracle reply decoding to a JSON object with no `entries` key is
returned unchanged by `parse_sloka_with_claude`, passes the verify loop
untouched, and its effective record sequence is empty. -/
theorem no_entries_key_yields_empty_records
    (decoder : Str → Option PyVal) (oracle : Str → Except PyErr Str)
    (sloka text : Str) (d : List (Str × PyVal))
    (hok : oracle sloka = .ok text)
    (hdec : decoder (sanitize_response text) = some (.vdict d))
    (hnone : dictGet d entriesKey = none) :
    parse_sloka_with_claude decoder oracle sloka = .vdict d ∧
    enrich_parsed (.vdict d) = .ok (.vdict d) ∧
    effective_records (.vdict d) = [] := by
  refine ⟨?_, ?_, ?_⟩
  · simp [parse_sloka_with_claude, enrich_reply, hok, hdec]
  · simp [enrich_parsed, hnone]
  · simp [effective_records, hnone]

/-- Witness for C7 at the decoded object `{"foo": "bar"}`. -/
theorem no_entries_key_yields_empty_records_witness :
    pyJsonDecode (sanitize_response "\x7b\"foo\": \"bar\"\x7d".toList)
      = some (.vdict [("foo".toList, .vstr "bar".toList)]) ∧
    dictGet [("foo".toList, PyVal.vstr "bar".toList)] entriesKey = none ∧
    parse_sloka_with_claude pyJsonDecode
      (fun _ => Except.ok "\x7b\"foo\": \"bar\"\x7d".toList) "स".toList
      = .vdict [("foo".toList, .vstr "bar".toList)] :=
  ⟨rfl, rfl,
    (no_entries_key_yields_empty_records pyJsonDecode
      (fun _ => Except.ok "\x7b\"foo\": \"bar\"\x7d".toList) "स".toList
      "\x7b\"foo\": \"bar\"\x7d".toList
      [("foo".toList, PyVal.vstr "bar".toList)] rfl rfl rfl).1⟩

/-- C6 counterexample: for the decoded entry `{"head": "क", "verify": true}`
the rebuilt entry is not `head, verify: false, <remaining fields>`: the
original `verify` value survives in place of the claimed `false`. -/
theorem verify_false_field_order_counterexample :
    add_verify_entry [(headKey, .vstr "क".toList), (verifyKey, .vbool true)] ≠
      (headKey, PyVal.vstr "क".toList) :: (verifyKey, PyVal.vbool false) ::
        residueFields [(headKey, .vstr "क".toList), (verifyKey, .vbool true)] := by
  intro hc
  have h : add_verify_entry [(headKey, .vstr "क".toList), (verifyKey, .vbool true)]
      = [(headKey, PyVal.vstr "क".toList), (verifyKey, PyVal.vbool true)] := rfl
  have hres : residueFields [(headKey, PyVal.vstr "क".toList),
      (verifyKey, PyVal.vbool true)] = [] := rfl
  rw [h, hres] at hc
  simp at hc

/-- C6 amended: for every decoded entry with unique keys that contains
`head`, the rebuilt field order is exactly `head`, then `verify` — whose
value is `False` unless the entry already had a `verify` field, in which
case that original value is kept — then the remaining original fields
(other than `head` and `verify`) in their original relative order; an entry
without `head` passes through unmodified with no `verify` inserted. -/
theorem field_order_head_verify_rest (e : List (Str × PyVal))
    (hnd : (e.map Prod.fst).Nodup) :
    (∀ vh, dictGet e headKey = some vh →
      add_verify_entry e =
        (headKey, vh) ::
        (verifyKey, (dictGet e verifyKey).getD (PyVal.vbool false)) ::
        residueFields e) ∧
    (dictGet e headKey = none → add_verify_entry e = e) := by
  constructor
  · intro vh h
    exact add_verify_entry_eq e vh hnd h
  · intro h
    apply add_verify_entry_no_head
    intro hany
    obtain ⟨v, hv⟩ := dictGet_of_any e headKey hany
    rw [h] at hv
    cases hv

/-- Witness for amended C6 at the entry `{"head": "क", "gender": "m"}`. -/
theorem field_order_head_verify_rest_witness :
    (([(headKey, PyVal.vstr "क".toList),
       ("gender".toList, PyVal.vstr "m".toList)]).map Prod.fst).Nodup ∧
    add_verify_entry [(headKey, PyVal.vstr "क".toList),
        ("gender".toList, PyVal.vstr "m".toList)] =
      [(headKey, PyVal.vstr "क".toList), (verifyKey, PyVal.vbool false),
       ("gender".toList, PyVal.vstr "m".toList)] := by
  have hnd : (([(headKey, PyVal.vstr "क".toList),
      ("gender".toList, PyVal.vstr "m".toList)]).map Prod.fst).Nodup := by
    decide
  refine ⟨hnd, ?_⟩
  rw [(field_order_head_verify_rest _ hnd).1 (PyVal.vstr "क".toList) rfl]
  rfl

/-- C10: a decoded entry containing both `head` and `verify` is rebuilt with
`verify` immediately after `head` carrying its original value — the later
assignment overwrites the inserted `False` — not necessarily `False`. -/
theorem existing_verify_value_preserved (e : List (Str × PyVal))
    (vh w : PyVal) (hnd : (e.map Prod.fst).Nodup)
    (hh : dictGet e headKey = some vh) (hv : dictGet e verifyKey = some w) :
    add_verify_entry e = (headKey, vh) :: (verifyKey, w) :: residueFields e := by
  rw [add_verify_entry_eq e vh hnd hh, hv]
  rfl

/-- Witness for C10 at `{"head": "क", "gender": "m", "verify": true}`. -/
theorem existing_verify_value_preserved_witness :
    (([(headKey, PyVal.vstr "क".toList),
       ("gender".toList, PyVal.vstr "m".toList),
       (verifyKey, PyVal.vbool true)]).map Prod.fst).Nodup ∧
    add_verify_entry [(headKey, PyVal.vstr "क".toList),
        ("gender".toList, PyVal.vstr "m".toList),
        (verifyKey, PyVal.vbool true)] =
      [(headKey, PyVal.vstr "क".toList), (verifyKey, PyVal.vbool true),
       ("gender".toList, PyVal.vstr "m".toList)] := by
  have hnd : (([(headKey, PyVal.vstr "क".toList),
      ("gender".toList, PyVal.vstr "m".toList),
      (verifyKey, PyVal.vbool true)]).map Prod.fst).Nodup := by decide
  refine ⟨hnd, ?_⟩
  rw [existing_verify_value_preserved _ (PyVal.vstr "क".toList)
    (PyVal.vbool true) hnd rfl rfl]
  rfl

theorem count_eq_one_of_mem_str (a : Str) (l : List Str)
    (hnd : l.Nodup) (h : a ∈ l) : l.count a = 1 := by
  induction l with
  | nil => simp at h
  | cons b rest ih =>
    rw [List.count_cons]
    rcases List.mem_cons.mp h with rfl | hmem
    · have h0 : rest.count a = 0 :=
        List.count_eq_zero.mpr (List.nodup_cons.mp hnd).1
      simp [h0]
    · have hne : b ≠ a := by
        intro hba
        exact (List.nodup_cons.mp hnd).1 (hba ▸ hmem)
      rw [ih (List.nodup_cons.mp hnd).2 hmem]
      simp [hne]

/-- C9: two distinct input units with identical corrected text collapse to a
single entry in the accumulator keyed by corrected text: the key occurs
exactly once, so one unit's result is silently discarded. -/
theorem corrected_text_collision_collapses
    (oracle_c : Str → Except PyErr Str) (pre mid post : List Str)
    (u₁ u₂ : Str) (hne : u₁ ≠ u₂)
    (hkey : ckey oracle_c u₁ = ckey oracle_c u₂) :
    ((correction_loop oracle_c (pre ++ u₁ :: mid ++ u₂ :: post)).map
        Prod.fst).count (ckey oracle_c u₁) = 1 := by
  apply count_eq_one_of_mem_str _ _ (correction_loop_nodup _ _)
  rw [correction_loop_mem]
  simp

/-- Witness for C9: `a␣␣b` and `a␣b` are distinct units with the same
corrected text (the always-raising oracle keeps each original, and
normalization collapses the double space). -/
theorem corrected_text_collision_collapses_witness :
    "a  b".toList ≠ "a b".toList ∧
    ckey (fun _ => Except.error PyErr.genericError) "a  b".toList =
      ckey (fun _ => Except.error PyErr.genericError) "a b".toList ∧
    ((correction_loop (fun _ => Except.error PyErr.genericError)
        ([] ++ "a  b".toList :: [] ++ "a b".toList :: [])).map
        Prod.fst).count
      (ckey (fun _ => Except.error PyErr.genericError) "a  b".toList) = 1 :=
  ⟨by decide, rfl,
    corrected_text_collision_collapses
      (fun _ => Except.error PyErr.genericError) [] [] []
      "a  b".toList "a b".toList (by decide) rfl⟩

/-- C8: for a batch whose corrected texts are pairwise distinct, the keys of
the assembled output are exactly the corrected texts in input order (the
model's association list preserves insertion order; no sorting occurs), in
both run modes. -/
theorem output_order_matches_input_order
    (oracle_c oracle_p : Str → Except PyErr Str)
    (decoder : Str → Option PyVal) (skip_enrichment : Bool)
    (units : List Str) (out : List (Str × PyVal))
    (hnd : (units.map (ckey oracle_c)).Nodup)
    (hrun : run_pipeline oracle_c oracle_p decoder skip_enrichment units
      = .ok out) :
    out.map Prod.fst = units.map (ckey oracle_c) := by
  have hkeys : (correction_loop oracle_c units).map Prod.fst =
      units.map (ckey oracle_c) := by
    rw [correction_loop_eq_map oracle_c units hnd, List.map_map]
    rfl
  unfold run_pipeline at hrun
  cases skip_enrichment with
  | true =>
    rw [if_pos rfl] at hrun
    cases hrun
    exact hkeys
  | false =>
    rw [if_neg (by simp)] at hrun
    have hnd' : ((correction_loop oracle_c units).map Prod.fst).Nodup := by
      rw [hkeys]; exact hnd
    rw [enrichment_loop_keys decoder oracle_p _ out hnd' hrun]
    exact hkeys

/-- Witness for C8 with two units, an identity correction oracle and a
well-formed parse reply. -/
theorem output_order_matches_input_order_witness :
    ((["u1".toList, "u2".toList]).map
        (ckey (fun s => Except.ok s))).Nodup ∧
    run_pipeline (fun s => Except.ok s)
        (fun _ => Except.ok "\x7b\"entries\": []\x7d".toList)
        pyJsonDecode false ["u1".toList, "u2".toList] =
      .ok [("u1".toList, PyVal.vdict [(entriesKey, PyVal.vlist [])]),
           ("u2".toList, PyVal.vdict [(entriesKey, PyVal.vlist [])])] ∧
    ([("u1".toList, PyVal.vdict [(entriesKey, PyVal.vlist [])]),
      ("u2".toList, PyVal.vdict [(entriesKey, PyVal.vlist [])])]).map
        Prod.fst =
      (["u1".toList, "u2".toList]).map (ckey (fun s => Except.ok s)) := by
  refine ⟨by decide, rfl, ?_⟩
  exact output_order_matches_input_order (fun s => Except.ok s)
    (fun _ => Except.ok "\x7b\"entries\": []\x7d".toList) pyJsonDecode false
    ["u1".toList, "u2".toList] _ (by decide) rfl

/-- C1 (code-bug evidence): with a parse-oracle reply `[]` — valid JSON of
an unexpected, non-object shape — for the first unit, the whole run aborts
with `AttributeError` (raised at `parsed.get('entries', [])` in `main`)
before any later unit is processed, although the second unit alone would
succeed. -/
theorem array_reply_aborts_pipeline_run :
    run_pipeline (fun s => Except.ok s)
      (fun s => Except.ok (if s = "u1".toList then "[]".toList
                           else "\x7b\"entries\": []\x7d".toList))
      pyJsonDecode false ["u1".toList, "u2".toList]
      = .error .attributeError ∧
    run_pipeline (fun s => Except.ok s)
      (fun s => Except.ok (if s = "u1".toList then "[]".toList
                           else "\x7b\"entries\": []\x7d".toList))
      pyJsonDecode false ["u2".toList]
      = .ok [("u2".toList, PyVal.vdict [(entriesKey, PyVal.vlist [])])] :=
  ⟨rfl, rfl⟩

end PdfPipeline
